import Mathlib

/-!
Verification of the Deep-Notes vault semantic index core
(`src/vectorStore.ts` and `src/indexer.ts`): the chunker, the vector
store (insert / delete-by-file / freshness / top-K search) and the
vault indexer.

Modelling conventions:
* text is `List Char` (a JavaScript string is a sequence of code units;
  every input considered here is plain characters);
* embedding vectors (`number[]` in the source) are `List ℚ`; only their
  length and identity matter to the verified properties;
* `async` functions are pure functions; a fallible embedding call is
  `List Char → Except String (List ℚ)`, an exception being `.error`;
* the `vectra` `LocalIndex` is a list of `(id, vector, metadata)` items
  with a fresh-id counter.
-/

namespace DeepNotes

/-- JavaScript whitespace (the `\s` class and the set trimmed by
`String.prototype.trim`), restricted to the ASCII code points that can
occur in the inputs of this development. -/
def isWs (c : Char) : Bool :=
  c == ' ' || c == '\t' || c == '\n' || c == '\r' || c == '\x0b' || c == '\x0c'

/-- `text.trim()`: drop whitespace from both ends. -/
def trim (s : List Char) : List Char :=
  ((s.dropWhile isWs).reverse.dropWhile isWs).reverse

/-- `content.split("\n")`. -/
def splitLines : List Char → List (List Char)
  | [] => [[]]
  | c :: rest =>
    match splitLines rest with
    | [] => [[]]
    | l :: ls => if c = '\n' then [] :: l :: ls else (c :: l) :: ls

/-- The heading test `line.match(/^(#{1,3})\s+(.+)/)`; `some h` carries the
second capture group (the heading text).  The regex matches exactly when the
line starts with one to three `#` not followed by a further `#`, then at
least one whitespace character, then at least one more character of any
kind; because the greedy `\s+` backtracks, the capture starts after
`min w (rest.length - 1)` whitespace characters, where `w` is the length of
the whitespace run after the hashes. -/
def headingMatch (line : List Char) : Option (List Char) :=
  let k := (line.takeWhile (· == '#')).length
  if k = 0 || 3 < k then none
  else
    let rest := line.drop k
    let w := (rest.takeWhile isWs).length
    if w = 0 || rest.length < 2 then none
    else some (rest.drop (min w (rest.length - 1)))

/-- The scan of `block.split(/\n\s*\n/)`: at a `'\n'` whose following
whitespace run contains another `'\n'`, the (greedy, backtracking) regex
match consumes through the last `'\n'` of that run and a paragraph
boundary is emitted; any other character is accumulated into the current
paragraph (kept in reverse in `acc`).  The scan resumes after the match:
`skip` counts the matched characters still to be passed over (the source
drops them in one step; counting them down one list cell at a time keeps
the recursion structural). -/
def splitParasGo : List Char → Nat → List Char → List (List Char)
  | [], _, acc => [acc.reverse]
  | _ :: rest, skip + 1, acc => splitParasGo rest skip acc
  | c :: rest, 0, acc =>
    if c = '\n' then
      let run := rest.takeWhile isWs
      if run.contains '\n' then
        let k := run.length - (run.reverse.takeWhile (fun d => !(d == '\n'))).length
        acc.reverse :: splitParasGo rest k []
      else splitParasGo rest 0 (c :: acc)
    else splitParasGo rest 0 (c :: acc)

/-- `block.split(/\n\s*\n/)`. -/
def splitParas (s : List Char) : List (List Char) :=
  splitParasGo s 0 []

/-- The greedy paragraph-accumulation loop of `splitLongBlock`, including
the trailing `if (buffer.trim()) pushChunk(buffer)`.  Returns the raw
buffer texts handed to `pushChunk`, in push order. -/
def greedyGo : List (List Char) → List Char → List (List Char)
  | [], buffer => if trim buffer ≠ [] then [buffer] else []
  | para :: paras, buffer =>
    if 800 < buffer.length + para.length ∧ 0 < buffer.length then
      buffer :: greedyGo paras para
    else
      greedyGo paras (if buffer.isEmpty then para else buffer ++ '\n' :: '\n' :: para)

/-- `splitLongBlock`: a block of at most 800 characters is pushed whole; a
longer block is split on `/\n\s*\n/` and re-accumulated greedily.  Returns
the raw texts handed to `pushChunk`, in push order. -/
def splitLongBlock (block : List Char) : List (List Char) :=
  if block.length ≤ 800 then [block] else greedyGo (splitParas block) []

/-- `pushChunk` applied to a list of raw texts: each text is trimmed and
texts whose trimmed length is below 30 are dropped. -/
def pushTexts (raws : List (List Char)) : List (List Char) :=
  (raws.map trim).filter (fun t => 30 ≤ t.length)

/-- The line loop of `chunkNote`: non-heading lines accumulate (with their
`'\n'`) into the current block, which is flushed through `splitLongBlock`
at every heading line and at end of input.  Emits the pushed
`(text, heading)` pairs in push order. -/
def chunkGo : List (List Char) → List Char → List Char → List (List Char × List Char)
  | [], heading, block =>
    if trim block ≠ [] then (pushTexts (splitLongBlock block)).map (fun t => (t, heading))
    else []
  | line :: rest, heading, block =>
    match headingMatch line with
    | some newHeading =>
      (if trim block ≠ [] then (pushTexts (splitLongBlock block)).map (fun t => (t, heading))
       else []) ++ chunkGo rest newHeading []
    | none => chunkGo rest heading (block ++ line ++ ['\n'])

/-- The heading sectioning of `chunkNote` in isolation: the
`(heading, block)` pairs flushed by the line loop, in flush order. -/
def blocksGo : List (List Char) → List Char → List Char → List (List Char × List Char)
  | [], heading, block => if trim block ≠ [] then [(heading, block)] else []
  | line :: rest, heading, block =>
    match headingMatch line with
    | some newHeading =>
      (if trim block ≠ [] then [(heading, block)] else []) ++ blocksGo rest newHeading []
    | none => blocksGo rest heading (block ++ line ++ ['\n'])

/-- `NoteChunk` of `vectorStore.ts`. -/
structure NoteChunk where
  text : List Char
  filePath : String
  chunkIndex : Nat
  heading : List Char
deriving DecidableEq, Repr

/-- Assign the running `chunkIndex` counter to the pushed `(text, heading)`
pairs; in the source the counter increments exactly once per successful
push, so the pushed chunks receive consecutive indices. -/
def numberChunks (filePath : String) : Nat → List (List Char × List Char) → List NoteChunk
  | _, [] => []
  | n, th :: rest => ⟨th.1, filePath, n, th.2⟩ :: numberChunks filePath (n + 1) rest

/-- `chunkNote(content, filePath)`: split into lines, run the heading /
block loop starting from the default heading `"Introduction"`, and number
the pushed chunks. -/
def chunkNote (content : List Char) (filePath : String) : List NoteChunk :=
  numberChunks filePath 0 (chunkGo (splitLines content) "Introduction".toList [])

/-- `ChunkMetadata` of `vectorStore.ts`: the persisted record fields. -/
structure ChunkMetadata where
  filePath : String
  chunkIndex : Nat
  heading : List Char
  text : List Char
  mtime : Int
deriving DecidableEq, Repr

/-- A stored `vectra` item: server-assigned id, vector, metadata. -/
structure Item where
  id : Nat
  vector : List ℚ
  metadata : ChunkMetadata
deriving DecidableEq, Repr

/-- The state of the `vectra` `LocalIndex`: the stored items (in insertion
order) and the next fresh item id. -/
structure IndexState where
  items : List Item
  nextId : Nat
deriving DecidableEq, Repr

/-- `index.insertItem({vector, metadata})`: append a new item under a fresh
id. -/
def insertItem (vector : List ℚ) (metadata : ChunkMetadata) (st : IndexState) : IndexState :=
  ⟨st.items ++ [⟨st.nextId, vector, metadata⟩], st.nextId + 1⟩

/-- `index.deleteItem(id)`. -/
def deleteItem (itemId : Nat) (st : IndexState) : IndexState :=
  ⟨st.items.filter (fun it => it.id ≠ itemId), st.nextId⟩

/-- `index.listItemsByMetadata({filePath})`: all items whose metadata
`filePath` equals the given path. -/
def listItemsByMetadata (filePath : String) (st : IndexState) : List Item :=
  st.items.filter (fun it => it.metadata.filePath == filePath)

/-- `VaultVectorStore.removeNote(filePath)`: list the items for the path
and delete each one by id. -/
def removeNote (filePath : String) (st : IndexState) : IndexState :=
  (listItemsByMetadata filePath st).foldl (fun s it => deleteItem it.id s) st

/-- `VaultVectorStore.isIndexed(filePath, mtime)`: false when no item
exists for the path; otherwise compare the first listed item's stored
mtime with the given one for exact equality. -/
def isIndexed (filePath : String) (mtime : Int) (st : IndexState) : Bool :=
  match listItemsByMetadata filePath st with
  | [] => false
  | r :: _ => r.metadata.mtime == mtime

/-- `VaultVectorStore.getStats().totalChunks`. -/
def getStats (st : IndexState) : Nat :=
  st.items.length

/-- An item paired with its query score. -/
structure ScoredItem where
  item : Item
  score : ℚ
deriving DecidableEq, Repr

/-- Insertion into a list sorted by descending score. -/
def insertByScore (x : ScoredItem) : List ScoredItem → List ScoredItem
  | [] => [x]
  | y :: ys => if y.score < x.score then x :: y :: ys else y :: insertByScore x ys

/-- Sort by descending score. -/
def sortByScore : List ScoredItem → List ScoredItem
  | [] => []
  | x :: xs => insertByScore x (sortByScore xs)

/-- `index.queryItems(queryEmbedding, "", n, undefined)` of the external
`vectra` library (not part of this repository), modelled as: score every
stored item against the query with the provider similarity `sim` and
return up to `n` items by descending score.  The theorems that use it
quantify over `sim` and the store, so they hold for every ranking the
external library could produce. -/
def queryItems (sim : List ℚ → ℚ) (n : Nat) (st : IndexState) : List ScoredItem :=
  (sortByScore (st.items.map (fun it => ⟨it, sim it.vector⟩))).take n

/-- `SearchResult` of `vectorStore.ts`. -/
structure SearchResult where
  text : List Char
  filePath : String
  noteTitle : String
  heading : List Char
  score : ℚ
deriving DecidableEq, Repr

/-- `filePath.split("/")`, last element, with `.replace(/\.md$/, "")`. -/
def noteTitleOf (filePath : String) : String :=
  let lastPart := (filePath.splitOn "/").getLastD ""
  if lastPart.endsWith ".md" then lastPart.dropRight 3 else lastPart

/-- The `search` filter predicate
`!excludeFilePath || meta.filePath !== excludeFilePath`:
`excludeFilePath` is either absent (`none`) or a string, and the empty
string is falsy in JavaScript, so it disables the filter entirely. -/
def keepItem (excludeFilePath : Option String) (filePath : String) : Bool :=
  match excludeFilePath with
  | none => true
  | some e => if e = "" then true else filePath != e

/-- `VaultVectorStore.search(queryEmbedding, topK, excludeFilePath?)`:
over-fetch `topK + 5`, filter by the exclusion predicate, truncate to
`topK`, and project each item to a `SearchResult` (note title derived
from the path). -/
def search (sim : List ℚ → ℚ) (st : IndexState) (topK : Nat)
    (excludeFilePath : Option String) : List SearchResult :=
  let results := queryItems sim (topK + 5) st
  ((results.filter (fun r => keepItem excludeFilePath r.item.metadata.filePath)).take topK).map
    (fun r => ⟨r.item.metadata.text, r.item.metadata.filePath,
               noteTitleOf r.item.metadata.filePath, r.item.metadata.heading, r.score⟩)

/-- A fallible embedding capability: `getEmbedding` either returns a
vector or throws. -/
abbrev EmbedFn := List Char → Except String (List ℚ)

/-- The outcome of `indexNote` / `indexSingleNote`: the store after the
call, the chunk texts passed to the embedding capability (in call order),
and the propagated exception, if any. -/
structure IndexNoteResult where
  store : IndexState
  calls : List (List Char)
  err : Option String
deriving DecidableEq, Repr

/-- The chunk loop of `indexNote`: for each chunk call the embedding
capability (the call is recorded in `calls`), skip the chunk when the
returned vector has length zero, insert a record otherwise, and stop with
the propagated error when the call throws. -/
def indexChunksGo (embedFn : EmbedFn) (mtime : Int) :
    List NoteChunk → IndexState → List (List Char) → IndexNoteResult
  | [], st, calls => ⟨st, calls, none⟩
  | c :: cs, st, calls =>
    match embedFn c.text with
    | .error e => ⟨st, calls ++ [c.text], some e⟩
    | .ok v =>
      if v.length = 0 then indexChunksGo embedFn mtime cs st (calls ++ [c.text])
      else
        indexChunksGo embedFn mtime cs
          (insertItem v ⟨c.filePath, c.chunkIndex, c.heading, c.text, mtime⟩ st)
          (calls ++ [c.text])

/-- `VaultVectorStore.indexNote(file, content, embedFn)`: remove the old
records for the file, chunk the content, then run the chunk loop. -/
def indexNote (embedFn : EmbedFn) (filePath : String) (mtime : Int)
    (content : List Char) (st : IndexState) : IndexNoteResult :=
  indexChunksGo embedFn mtime (chunkNote content filePath) (removeNote filePath st) []

/-- A vault file: path, modification time, and the outcome of
`vault.read(file)` (which can throw). -/
structure File where
  path : String
  mtime : Int
  content : Except String (List Char)
deriving Repr

/-- `VaultIndexer.indexSingleNote(file)`: read the file and run
`indexNote`; a read failure or an embedding failure is rethrown to the
caller (reported here in `err`).  No freshness check is performed. -/
def indexSingleNote (embedFn : EmbedFn) (f : File) (st : IndexState) : IndexNoteResult :=
  match f.content with
  | .error e => ⟨st, [], some e⟩
  | .ok content => indexNote embedFn f.path f.mtime content st

/-- The aggregate outcome of a full-vault pass. -/
structure VaultResult where
  indexed : Nat
  skipped : Nat
  failed : Nat
  store : IndexState
deriving DecidableEq, Repr

/-- The file loop of `VaultIndexer.indexVault`: a fresh file (`isIndexed`)
is counted as skipped; otherwise `indexSingleNote` runs, and its outcome
is counted as indexed on success or as failed on an exception, after
which the loop continues with the next file. -/
def indexVault (embedFn : EmbedFn) : List File → IndexState → VaultResult
  | [], st => ⟨0, 0, 0, st⟩
  | f :: files, st =>
    if isIndexed f.path f.mtime st then
      let r := indexVault embedFn files st
      ⟨r.indexed, r.skipped + 1, r.failed, r.store⟩
    else
      let r1 := indexSingleNote embedFn f st
      let r := indexVault embedFn files r1.store
      match r1.err with
      | none => ⟨r.indexed + 1, r.skipped, r.failed, r.store⟩
      | some _ => ⟨r.indexed, r.skipped, r.failed + 1, r.store⟩

/-- The records the chunk loop inserts for a chunk list, starting from
fresh id `n`: one record per chunk whose embedding call returns a
non-empty vector, stopping at the first chunk whose call throws. -/
def insertedOf (embedFn : EmbedFn) (mtime : Int) : Nat → List NoteChunk → List Item
  | _, [] => []
  | n, c :: cs =>
    match embedFn c.text with
    | .error _ => []
    | .ok v =>
      if v.length = 0 then insertedOf embedFn mtime n cs
      else ⟨n, v, ⟨c.filePath, c.chunkIndex, c.heading, c.text, mtime⟩⟩ ::
        insertedOf embedFn mtime (n + 1) cs

/-! ### Lemmas about `trim` -/

theorem trim_eq_rdropWhile (s : List Char) :
    trim s = List.rdropWhile isWs (s.dropWhile isWs) := by
  simp [trim, List.rdropWhile]

theorem trim_length_le (s : List Char) : (trim s).length ≤ s.length := by
  rw [trim_eq_rdropWhile]
  calc (List.rdropWhile isWs (s.dropWhile isWs)).length
      ≤ (s.dropWhile isWs).length :=
        (List.rdropWhile_prefix isWs _).length_le
    _ ≤ s.length := (List.dropWhile_suffix isWs).length_le

theorem dropWhile_eq_self_of_initial {p : Char → Bool} {l l' : List Char}
    (h : l.dropWhile p = l) (hpre : l' <+: l) : l'.dropWhile p = l' := by
  rw [List.dropWhile_eq_self_iff] at h ⊢
  intro hl
  have hlen : 0 < l.length := lt_of_lt_of_le hl hpre.length_le
  have h0 := h hlen
  simp only [List.get_eq_getElem] at h0 ⊢
  rwa [hpre.getElem hl]

theorem trim_trim (s : List Char) : trim (trim s) = trim s := by
  rw [trim_eq_rdropWhile, trim_eq_rdropWhile]
  have h1 : (s.dropWhile isWs).dropWhile isWs = s.dropWhile isWs :=
    List.dropWhile_idempotent isWs _
  rw [dropWhile_eq_self_of_initial h1 (List.rdropWhile_prefix isWs _)]
  exact List.rdropWhile_idempotent isWs _

/-! ### Structure of the chunker -/

theorem mem_pushTexts {t : List Char} {raws : List (List Char)}
    (h : t ∈ pushTexts raws) : (∃ r ∈ raws, t = trim r) ∧ 30 ≤ t.length := by
  unfold pushTexts at h
  rw [List.mem_filter] at h
  obtain ⟨hmem, hlen⟩ := h
  rw [List.mem_map] at hmem
  obtain ⟨r, hr, ht⟩ := hmem
  exact ⟨⟨r, hr, ht.symm⟩, by simpa using hlen⟩

theorem mem_greedyGo {P : List Char → Prop}
    (hP802 : ∀ t, t.length ≤ 802 → P t) :
    ∀ (paras : List (List Char)) (buffer : List Char),
      (buffer.length ≤ 802 ∨ P buffer) → (∀ q ∈ paras, P q) →
      ∀ t ∈ greedyGo paras buffer, P t := by
  intro paras
  induction paras with
  | nil =>
    intro buffer hbuf _ t ht
    simp only [greedyGo] at ht
    split at ht
    · rw [List.mem_singleton] at ht
      subst ht
      rcases hbuf with h | h
      · exact hP802 _ h
      · exact h
    · simp at ht
  | cons para paras ih =>
    intro buffer hbuf hparas t ht
    simp only [greedyGo] at ht
    split at ht
    · rename_i hcond
      rw [List.mem_cons] at ht
      rcases ht with rfl | ht
      · rcases hbuf with h | h
        · exact hP802 _ h
        · exact h
      · exact ih para (Or.inr (hparas _ (List.mem_cons_self _ _)))
          (fun q hq => hparas q (List.mem_cons_of_mem _ hq)) t ht
    · rename_i hcond
      by_cases hemp : buffer.isEmpty
      · rw [if_pos hemp] at ht
        exact ih para (Or.inr (hparas _ (List.mem_cons_self _ _)))
          (fun q hq => hparas q (List.mem_cons_of_mem _ hq)) t ht
      · rw [if_neg hemp] at ht
        have hlen : buffer.length + para.length ≤ 800 := by
          by_contra hgt
          push_neg at hgt
          apply hcond
          refine ⟨hgt, ?_⟩
          cases buffer with
          | nil => simp [List.isEmpty] at hemp
          | cons a l => simp
        refine ih _ (Or.inl ?_)
          (fun q hq => hparas q (List.mem_cons_of_mem _ hq)) t ht
        simp only [List.length_append, List.length_cons]
        omega

/-- Every raw text pushed by `splitLongBlock` has length at most 802 or is
one of the paragraphs of the block (verbatim): the greedy accumulator only
ever grows a non-empty buffer when `buffer.length + para.length ≤ 800`,
and the `"\n\n"` joiner adds two more characters. -/
theorem mem_splitLongBlock {block t : List Char} (h : t ∈ splitLongBlock block) :
    t.length ≤ 802 ∨ t ∈ splitParas block := by
  unfold splitLongBlock at h
  split at h
  · rename_i hle
    rw [List.mem_singleton] at h
    subst h
    exact Or.inl (le_trans hle (by omega))
  · exact mem_greedyGo (fun u hu => Or.inl hu) (splitParas block) []
      (Or.inl (by simp)) (fun q hq => Or.inr hq) t h

theorem mem_chunkGo {th : List Char × List Char} :
    ∀ (lines : List (List Char)) (heading block : List Char),
      th ∈ chunkGo lines heading block →
      ∃ hb ∈ blocksGo lines heading block,
        th.1 ∈ pushTexts (splitLongBlock hb.2) ∧ th.2 = hb.1 := by
  intro lines
  induction lines with
  | nil =>
    intro heading block h
    simp only [chunkGo] at h
    split at h
    · rename_i hbl
      rw [List.mem_map] at h
      obtain ⟨t, ht, hth⟩ := h
      refine ⟨(heading, block), ?_, ?_, ?_⟩
      · simp [blocksGo, hbl]
      · subst hth; exact ht
      · subst hth; rfl
    · simp at h
  | cons line rest ih =>
    intro heading block h
    simp only [chunkGo] at h
    cases hm : headingMatch line with
    | some newHeading =>
      rw [hm] at h
      rw [List.mem_append] at h
      rcases h with h | h
      · split at h
        · rename_i hbl
          rw [List.mem_map] at h
          obtain ⟨t, ht, hth⟩ := h
          refine ⟨(heading, block), ?_, ?_, ?_⟩
          · simp [blocksGo, hm, hbl]
          · subst hth; exact ht
          · subst hth; rfl
        · simp at h
      · obtain ⟨hb, hmem, hrest⟩ := ih _ _ h
        refine ⟨hb, ?_, hrest⟩
        simp only [blocksGo, hm]
        exact List.mem_append_right _ hmem
    | none =>
      rw [hm] at h
      obtain ⟨hb, hmem, hrest⟩ := ih _ _ h
      refine ⟨hb, ?_, hrest⟩
      simpa only [blocksGo, hm] using hmem

theorem numberChunks_map_chunkIndex (filePath : String) :
    ∀ (n : Nat) (l : List (List Char × List Char)),
      (numberChunks filePath n l).map (fun c => c.chunkIndex) = List.range' n l.length := by
  intro n l
  induction l generalizing n with
  | nil => simp [numberChunks]
  | cons th rest ih => simp [numberChunks, List.range'_succ, ih]

theorem mem_numberChunks {c : NoteChunk} {filePath : String} :
    ∀ {n : Nat} {l : List (List Char × List Char)},
      c ∈ numberChunks filePath n l →
      ∃ th ∈ l, c.text = th.1 ∧ c.heading = th.2 ∧ c.filePath = filePath := by
  intro n l
  induction l generalizing n with
  | nil => simp [numberChunks]
  | cons th rest ih =>
    intro h
    rw [numberChunks, List.mem_cons] at h
    rcases h with rfl | h
    · exact ⟨th, List.mem_cons_self _ _, rfl, rfl, rfl⟩
    · obtain ⟨th', hmem, h1, h2, h3⟩ := ih h
      exact ⟨th', List.mem_cons_of_mem _ hmem, h1, h2, h3⟩

/-- Every chunk of `chunkNote` comes from a flushed `(heading, block)`
pair: its text is the trim of a raw text pushed by `splitLongBlock` on
that block, its heading is the pair's heading, its path is the given
path, and its trimmed length is at least 30. -/
theorem mem_chunkNote {c : NoteChunk} {content : List Char} {filePath : String}
    (h : c ∈ chunkNote content filePath) :
    c.filePath = filePath ∧ 30 ≤ c.text.length ∧
    ∃ hb ∈ blocksGo (splitLines content) "Introduction".toList [],
      c.heading = hb.1 ∧ ∃ raw ∈ splitLongBlock hb.2, c.text = trim raw := by
  unfold chunkNote at h
  obtain ⟨th, hth, htext, hheading, hpath⟩ := mem_numberChunks h
  obtain ⟨hb, hbmem, hpush, hhd⟩ := mem_chunkGo _ _ _ hth
  obtain ⟨⟨raw, hraw, htrim⟩, hlen⟩ := mem_pushTexts hpush
  exact ⟨hpath, htext ▸ hlen, hb, hbmem, by rw [hheading, hhd],
    raw, hraw, by rw [htext, htrim]⟩

/-! ### Lemmas about the store -/

theorem foldl_deleteItem_eq_filter :
    ∀ (ds : List Item) (st : IndexState),
      ds.foldl (fun s it => deleteItem it.id s) st
        = ⟨st.items.filter (fun it => decide (∀ d ∈ ds, it.id ≠ d.id)), st.nextId⟩ := by
  intro ds
  induction ds with
  | nil =>
    intro st
    simp
  | cons d ds ih =>
    intro st
    rw [List.foldl_cons, ih]
    simp only [deleteItem, List.filter_filter]
    congr 1
    apply List.filter_congr
    intro it _
    rw [Bool.and_comm, ← Bool.decide_and, decide_eq_decide]
    rw [List.forall_mem_cons]

/-- Under distinct item ids, `removeNote` removes exactly the items whose
metadata path equals the given path, and leaves `nextId` unchanged. -/
theorem removeNote_eq_filter (filePath : String) (st : IndexState)
    (hids : (st.items.map Item.id).Nodup) :
    removeNote filePath st
      = ⟨st.items.filter (fun it => !(it.metadata.filePath == filePath)), st.nextId⟩ := by
  rw [removeNote, foldl_deleteItem_eq_filter]
  congr 1
  apply List.filter_congr
  intro it hit
  rw [listItemsByMetadata]
  by_cases hp : it.metadata.filePath = filePath
  · have hmem : it ∈ st.items.filter (fun x => x.metadata.filePath == filePath) := by
      rw [List.mem_filter]
      exact ⟨hit, by simp [hp]⟩
    have h1 : (it.metadata.filePath == filePath) = true := by simp [hp]
    rw [h1]
    simp only [Bool.not_true, decide_eq_false_iff_not]
    intro hall
    exact hall it hmem rfl
  · have h1 : (it.metadata.filePath == filePath) = false := by simp [hp]
    rw [h1]
    simp only [Bool.not_false, decide_eq_true_eq]
    intro d hd hid
    rw [List.mem_filter] at hd
    obtain ⟨hdmem, hdpath⟩ := hd
    have : it = d := List.inj_on_of_nodup_map hids hit hdmem hid
    subst this
    rw [beq_iff_eq] at hdpath
    exact hp hdpath

theorem listItemsByMetadata_eq_nil_iff {filePath : String} {st : IndexState} :
    listItemsByMetadata filePath st = [] ↔
      ∀ it ∈ st.items, it.metadata.filePath ≠ filePath := by
  rw [listItemsByMetadata, List.filter_eq_nil_iff]
  constructor
  · intro h it hit
    have := h it hit
    simpa using this
  · intro h it hit
    simpa using h it hit

/-! ### Lemmas about the indexer -/

theorem indexChunksGo_store_items (embedFn : EmbedFn) (mtime : Int) :
    ∀ (cs : List NoteChunk) (st : IndexState) (calls : List (List Char)),
      (indexChunksGo embedFn mtime cs st calls).store.items
        = st.items ++ insertedOf embedFn mtime st.nextId cs := by
  intro cs
  induction cs with
  | nil => intro st calls; simp [indexChunksGo, insertedOf]
  | cons c cs ih =>
    intro st calls
    simp only [indexChunksGo, insertedOf]
    cases embedFn c.text with
    | error e => simp
    | ok v =>
      simp only
      by_cases hv : v.length = 0
      · rw [if_pos hv, if_pos hv, ih]
      · rw [if_neg hv, if_neg hv, ih]
        simp [insertItem]

theorem indexChunksGo_store_nextId (embedFn : EmbedFn) (mtime : Int) :
    ∀ (cs : List NoteChunk) (st : IndexState) (calls : List (List Char)),
      st.nextId ≤ (indexChunksGo embedFn mtime cs st calls).store.nextId := by
  intro cs
  induction cs with
  | nil => intro st calls; simp [indexChunksGo]
  | cons c cs ih =>
    intro st calls
    simp only [indexChunksGo]
    cases embedFn c.text with
    | error e => simp
    | ok v =>
      simp only
      by_cases hv : v.length = 0
      · rw [if_pos hv]; exact ih st _
      · rw [if_neg hv]
        calc st.nextId ≤ st.nextId + 1 := Nat.le_succ _
          _ ≤ _ := ih (insertItem v _ st) _

theorem indexChunksGo_calls (embedFn : EmbedFn) (mtime : Int) :
    ∀ (cs : List NoteChunk) (st : IndexState) (calls : List (List Char)),
      (∀ c ∈ cs, ∃ v, embedFn c.text = .ok v) →
      (indexChunksGo embedFn mtime cs st calls).calls
        = calls ++ cs.map (fun c => c.text) := by
  intro cs
  induction cs with
  | nil => intro st calls _; simp [indexChunksGo]
  | cons c cs ih =>
    intro st calls hok
    obtain ⟨v, hv⟩ := hok c (List.mem_cons_self _ _)
    have hok' : ∀ c ∈ cs, ∃ v, embedFn c.text = .ok v :=
      fun c hc => hok c (List.mem_cons_of_mem _ hc)
    simp only [indexChunksGo, hv]
    by_cases hlen : v.length = 0
    · rw [if_pos hlen, ih _ _ hok']
      simp
    · rw [if_neg hlen, ih _ _ hok']
      simp

theorem indexChunksGo_err (embedFn : EmbedFn) (mtime : Int) :
    ∀ (cs : List NoteChunk) (st : IndexState) (calls : List (List Char)),
      (∀ c ∈ cs, ∃ v, embedFn c.text = .ok v) →
      (indexChunksGo embedFn mtime cs st calls).err = none := by
  intro cs
  induction cs with
  | nil => intro st calls _; simp [indexChunksGo]
  | cons c cs ih =>
    intro st calls hok
    obtain ⟨v, hv⟩ := hok c (List.mem_cons_self _ _)
    have hok' : ∀ c ∈ cs, ∃ v, embedFn c.text = .ok v :=
      fun c hc => hok c (List.mem_cons_of_mem _ hc)
    simp only [indexChunksGo, hv]
    by_cases hlen : v.length = 0
    · rw [if_pos hlen]; exact ih _ _ hok'
    · rw [if_neg hlen]; exact ih _ _ hok'

/-- The embedding vector obtained for a chunk, defaulting to `[]` when the
call throws. -/
def embedVec (embedFn : EmbedFn) (c : NoteChunk) : List ℚ :=
  (embedFn c.text).toOption.getD []

theorem insertedOf_map_metadata (embedFn : EmbedFn) (mtime : Int) :
    ∀ (cs : List NoteChunk) (n : Nat),
      (∀ c ∈ cs, ∃ v, embedFn c.text = .ok v) →
      (insertedOf embedFn mtime n cs).map Item.metadata
        = (cs.filter (fun c => !(embedVec embedFn c).isEmpty)).map
            (fun c => ⟨c.filePath, c.chunkIndex, c.heading, c.text, mtime⟩) := by
  intro cs
  induction cs with
  | nil => intro n _; simp [insertedOf]
  | cons c cs ih =>
    intro n hok
    obtain ⟨v, hv⟩ := hok c (List.mem_cons_self _ _)
    have hok' : ∀ c ∈ cs, ∃ v, embedFn c.text = .ok v :=
      fun c hc => hok c (List.mem_cons_of_mem _ hc)
    have hvec : embedVec embedFn c = v := by
      simp only [embedVec, hv]
      rfl
    simp only [insertedOf, hv, List.filter_cons, hvec]
    by_cases hlen : v.length = 0
    · have : v.isEmpty = true := by
        cases v with
        | nil => rfl
        | cons a l => simp at hlen
      rw [if_pos hlen]
      simp only [this, Bool.not_true, Bool.false_eq_true, if_false]
      exact ih n hok'
    · have : v.isEmpty = false := by
        cases v with
        | nil => simp at hlen
        | cons a l => rfl
      rw [if_neg hlen]
      simp only [this, Bool.not_false, if_true, List.map_cons]
      rw [ih (n + 1) hok']

theorem insertedOf_filePath (embedFn : EmbedFn) (mtime : Int) (p : String) :
    ∀ (cs : List NoteChunk) (n : Nat),
      (∀ c ∈ cs, c.filePath = p) →
      ∀ it ∈ insertedOf embedFn mtime n cs, it.metadata.filePath = p := by
  intro cs
  induction cs with
  | nil => intro n _ it hit; simp [insertedOf] at hit
  | cons c cs ih =>
    intro n hp it hit
    have hp' : ∀ c ∈ cs, c.filePath = p :=
      fun c hc => hp c (List.mem_cons_of_mem _ hc)
    simp only [insertedOf] at hit
    cases hcall : embedFn c.text with
    | error e => rw [hcall] at hit; simp at hit
    | ok v =>
      rw [hcall] at hit
      simp only at hit
      by_cases hlen : v.length = 0
      · rw [if_pos hlen] at hit
        exact ih n hp' it hit
      · rw [if_neg hlen] at hit
        rw [List.mem_cons] at hit
        rcases hit with rfl | hit
        · exact hp c (List.mem_cons_self _ _)
        · exact ih (n + 1) hp' it hit

theorem chunkNote_filePath {c : NoteChunk} {content : List Char} {p : String}
    (h : c ∈ chunkNote content p) : c.filePath = p :=
  (mem_chunkNote h).1

/-! ### A single long line through the chunker, symbolically -/

theorem splitLines_eq_singleton : ∀ {s : List Char}, '\n' ∉ s → splitLines s = [s] := by
  intro s h
  induction s with
  | nil => rfl
  | cons c rest ih =>
    have hc : ¬c = '\n' := by
      rintro rfl
      exact h (List.mem_cons_self _ _)
    have hr : '\n' ∉ rest := fun hm => h (List.mem_cons_of_mem _ hm)
    simp [splitLines, ih hr, hc]

theorem contains_eq_false_of_not_mem {l : List Char} {a : Char} (h : a ∉ l) :
    l.contains a = false := by
  rw [Bool.eq_false_iff]
  intro hc
  exact h (List.elem_iff.mp hc)

theorem splitParasGo_single :
    ∀ (s : List Char), s.count '\n' ≤ 1 →
      ∀ (acc : List Char), splitParasGo s 0 acc = [acc.reverse ++ s] := by
  intro s
  induction s with
  | nil => intro _ acc; simp [splitParasGo]
  | cons c rest ih =>
    intro hcount acc
    by_cases hc : c = '\n'
    · subst hc
      have hrest : rest.count '\n' = 0 := by
        rw [List.count_cons] at hcount
        simp at hcount
        omega
      have hnot : '\n' ∉ rest := by
        rw [← List.count_eq_zero]
        exact hrest
      have hmemrun : '\n' ∉ rest.takeWhile isWs :=
        fun hm => hnot ((List.takeWhile_sublist _).subset hm)
      have hrun : ((rest.takeWhile isWs).contains '\n') = false :=
        contains_eq_false_of_not_mem hmemrun
      have ihr := ih (by omega) ('\n' :: acc)
      simp [splitParasGo, hrun, hmemrun, ihr]
    · have hrest : rest.count '\n' ≤ 1 := by
        rw [List.count_cons] at hcount
        omega
      have ihr := ih hrest (c :: acc)
      simp [splitParasGo, hc, ihr]

theorem splitParas_single {s : List Char} (h : s.count '\n' ≤ 1) :
    splitParas s = [s] := by
  rw [splitParas, splitParasGo_single s h []]
  simp

theorem greedyGo_single {b : List Char} (h : trim b ≠ []) : greedyGo [b] [] = [b] := by
  simp [greedyGo, h]

theorem splitLongBlock_single {b : List Char} (hlen : 800 < b.length)
    (hcount : b.count '\n' ≤ 1) (htrim : trim b ≠ []) :
    splitLongBlock b = [b] := by
  rw [splitLongBlock, if_neg (by omega), splitParas_single hcount, greedyGo_single htrim]

theorem chunkNote_one_line {content : List Char} {fp : String}
    (hnl : '\n' ∉ content) (hhm : headingMatch content = none)
    (htrim : trim (content ++ ['\n']) ≠ []) :
    chunkNote content fp
      = numberChunks fp 0 ((pushTexts (splitLongBlock (content ++ ['\n']))).map
          (fun t => (t, "Introduction".toList))) := by
  rw [chunkNote, splitLines_eq_singleton hnl]
  simp [chunkGo, hhm, htrim]

theorem trim_replicate_a_newline :
    trim (List.replicate 2000 'a' ++ ['\n']) = List.replicate 2000 'a' := by
  rw [trim_eq_rdropWhile]
  have ha : isWs 'a' = false := by decide
  have h1 : (List.replicate 2000 'a' ++ ['\n']).dropWhile isWs
      = List.replicate 2000 'a' ++ ['\n'] := by
    rw [show List.replicate 2000 'a' = 'a' :: List.replicate 1999 'a' from rfl]
    rw [List.cons_append, List.dropWhile_cons, ha]
    rw [if_neg (by decide)]
  rw [h1, List.rdropWhile_concat_pos _ _ _ (by decide)]
  rw [show List.replicate 2000 'a' = List.replicate 1999 'a' ++ ['a'] from
    List.replicate_succ' 1999 'a']
  rw [List.rdropWhile_concat_neg _ _ _ (by decide)]

theorem headingMatch_replicate_a : headingMatch (List.replicate 2000 'a') = none := rfl

/-- A headingless single line of 2000 non-whitespace characters chunks to
exactly one chunk carrying the whole (trimmed) text and the default
heading: the block exceeds 800 characters but consists of a single
paragraph, and `splitLongBlock` never splits inside a paragraph. -/
theorem chunkNote_replicate2000 :
    chunkNote (List.replicate 2000 'a') "note.md"
      = [⟨List.replicate 2000 'a', "note.md", 0, "Introduction".toList⟩] := by
  have hnl : '\n' ∉ List.replicate 2000 'a' := by
    rw [List.mem_replicate]
    decide
  have hcount : (List.replicate 2000 'a' ++ ['\n']).count '\n' ≤ 1 := by
    rw [List.count_append, List.count_replicate, if_neg (by decide)]
    have h1 : List.count '\n' ['\n'] = 1 := by decide
    omega
  have htrim : trim (List.replicate 2000 'a' ++ ['\n']) = List.replicate 2000 'a' :=
    trim_replicate_a_newline
  have htrim' : trim (List.replicate 2000 'a' ++ ['\n']) ≠ [] := by
    rw [htrim]
    intro h
    have hl := congrArg List.length h
    rw [List.length_replicate, List.length_nil] at hl
    omega
  have hlen : 800 < (List.replicate 2000 'a' ++ ['\n']).length := by
    rw [List.length_append, List.length_replicate, List.length_cons, List.length_nil]
    omega
  rw [chunkNote_one_line hnl headingMatch_replicate_a htrim',
    splitLongBlock_single hlen hcount htrim']
  have h30 : (List.replicate 2000 'a').length ≥ 30 := by
    rw [List.length_replicate]
    omega
  have hpush : pushTexts [List.replicate 2000 'a' ++ ['\n']] = [List.replicate 2000 'a'] := by
    rw [pushTexts, List.map_cons, List.map_nil, htrim]
    rw [List.filter_cons_of_pos (by exact decide_eq_true h30), List.filter_nil]
  rw [hpush, List.map_cons, List.map_nil, numberChunks, numberChunks]

/-! ### Aggregate counts of the vault pass -/

theorem indexVault_count_sum (embedFn : EmbedFn) :
    ∀ (files : List File) (st : IndexState),
      (indexVault embedFn files st).indexed + (indexVault embedFn files st).skipped
        + (indexVault embedFn files st).failed = files.length := by
  intro files
  induction files with
  | nil => intro st; simp [indexVault]
  | cons f files ih =>
    intro st
    simp only [indexVault]
    by_cases hfresh : isIndexed f.path f.mtime st
    · rw [if_pos hfresh]
      have := ih st
      simp only [List.length_cons]
      omega
    · rw [if_neg hfresh]
      cases herr : (indexSingleNote embedFn f st).err with
      | none =>
        simp only [herr]
        have := ih (indexSingleNote embedFn f st).store
        simp only [List.length_cons]
        omega
      | some e =>
        simp only [herr]
        have := ih (indexSingleNote embedFn f st).store
        simp only [List.length_cons]
        omega

theorem indexVault_cons_failed (embedFn : EmbedFn) (f : File) (files : List File)
    (st : IndexState) (e : String)
    (hfresh : isIndexed f.path f.mtime st = false)
    (herr : (indexSingleNote embedFn f st).err = some e) :
    indexVault embedFn (f :: files) st
      = ⟨(indexVault embedFn files (indexSingleNote embedFn f st).store).indexed,
         (indexVault embedFn files (indexSingleNote embedFn f st).store).skipped,
         (indexVault embedFn files (indexSingleNote embedFn f st).store).failed + 1,
         (indexVault embedFn files (indexSingleNote embedFn f st).store).store⟩ := by
  simp only [indexVault, hfresh, Bool.false_eq_true, if_false, herr]

theorem indexSingleNote_calls (embedFn : EmbedFn) (f : File) (content : List Char)
    (st : IndexState) (hread : f.content = .ok content)
    (hok : ∀ t, ∃ v, embedFn t = .ok v) :
    (indexSingleNote embedFn f st).calls
      = (chunkNote content f.path).map (fun c => c.text) := by
  simp only [indexSingleNote, hread, indexNote]
  rw [indexChunksGo_calls _ _ _ _ _ (fun c _ => hok c.text)]
  simp

/-! ### Freshness -/

theorem isIndexed_iff {p : String} {m : Int} {st : IndexState}
    (hinv : ∀ r ∈ st.items, ∀ u ∈ st.items, r.metadata.filePath = p →
      u.metadata.filePath = p → r.metadata.mtime = u.metadata.mtime) :
    isIndexed p m st = true ↔
      ∃ r ∈ st.items, r.metadata.filePath = p ∧ r.metadata.mtime = m := by
  rw [isIndexed]
  cases hl : listItemsByMetadata p st with
  | nil =>
    constructor
    · intro h
      exact absurd h (by simp)
    · rintro ⟨r, hr, hrp, _⟩
      exact absurd hrp (listItemsByMetadata_eq_nil_iff.mp hl r hr)
  | cons r0 rest =>
    have hr0 : r0 ∈ listItemsByMetadata p st := by
      rw [hl]
      exact List.mem_cons_self _ _
    rw [listItemsByMetadata, List.mem_filter] at hr0
    obtain ⟨hmem, hbeq⟩ := hr0
    rw [beq_iff_eq] at hbeq
    constructor
    · intro h
      rw [beq_iff_eq] at h
      exact ⟨r0, hmem, hbeq, h⟩
    · rintro ⟨r, hr, hrp, hrm⟩
      rw [beq_iff_eq]
      rw [← hrm]
      exact hinv r0 hmem r hr hbeq hrp

/-! ### The store after `indexNote` -/

theorem embedVec_eq_of_ok {embedFn : EmbedFn} {c : NoteChunk} {v : List ℚ}
    (h : embedFn c.text = .ok v) : embedVec embedFn c = v := by
  simp only [embedVec, h]
  rfl

theorem indexNote_store_items (embedFn : EmbedFn) (p : String) (mtime : Int)
    (content : List Char) (st : IndexState)
    (hids : (st.items.map Item.id).Nodup) :
    (indexNote embedFn p mtime content st).store.items
      = st.items.filter (fun it => !(it.metadata.filePath == p))
        ++ insertedOf embedFn mtime st.nextId (chunkNote content p) := by
  simp only [indexNote, indexChunksGo_store_items, removeNote_eq_filter p st hids]

theorem indexNote_filter_path (embedFn : EmbedFn) (p : String) (mtime : Int)
    (content : List Char) (st : IndexState)
    (hids : (st.items.map Item.id).Nodup) :
    (indexNote embedFn p mtime content st).store.items.filter
        (fun it => it.metadata.filePath == p)
      = insertedOf embedFn mtime st.nextId (chunkNote content p) := by
  rw [indexNote_store_items embedFn p mtime content st hids, List.filter_append]
  have h1 : (st.items.filter (fun it => !(it.metadata.filePath == p))).filter
      (fun it => it.metadata.filePath == p) = [] := by
    rw [List.filter_eq_nil_iff]
    intro a ha
    rw [List.mem_filter] at ha
    obtain ⟨-, hnot⟩ := ha
    simp only [Bool.not_eq_eq_eq_not, Bool.not_true] at hnot
    simp [hnot]
  have h2 : (insertedOf embedFn mtime st.nextId (chunkNote content p)).filter
      (fun it => it.metadata.filePath == p)
      = insertedOf embedFn mtime st.nextId (chunkNote content p) := by
    rw [List.filter_eq_self]
    intro a ha
    have := insertedOf_filePath embedFn mtime p (chunkNote content p) st.nextId
      (fun c hc => chunkNote_filePath hc) a ha
    simp [this]
  rw [h1, h2, List.nil_append]

theorem indexNote_filter_not_path (embedFn : EmbedFn) (p : String) (mtime : Int)
    (content : List Char) (st : IndexState)
    (hids : (st.items.map Item.id).Nodup) :
    (indexNote embedFn p mtime content st).store.items.filter
        (fun it => !(it.metadata.filePath == p))
      = st.items.filter (fun it => !(it.metadata.filePath == p)) := by
  rw [indexNote_store_items embedFn p mtime content st hids, List.filter_append]
  have h1 : (st.items.filter (fun it => !(it.metadata.filePath == p))).filter
      (fun it => !(it.metadata.filePath == p))
      = st.items.filter (fun it => !(it.metadata.filePath == p)) := by
    rw [List.filter_eq_self]
    intro a ha
    rw [List.mem_filter] at ha
    exact ha.2
  have h2 : (insertedOf embedFn mtime st.nextId (chunkNote content p)).filter
      (fun it => !(it.metadata.filePath == p)) = [] := by
    rw [List.filter_eq_nil_iff]
    intro a ha
    have := insertedOf_filePath embedFn mtime p (chunkNote content p) st.nextId
      (fun c hc => chunkNote_filePath hc) a ha
    simp [this]
  rw [h1, h2, List.append_nil]

theorem indexNote_inserted_map (embedFn : EmbedFn) (p : String) (mtime : Int)
    (content : List Char) (st : IndexState)
    (hok : ∀ c ∈ chunkNote content p, ∃ v, embedFn c.text = .ok v) :
    (insertedOf embedFn mtime st.nextId (chunkNote content p)).map Item.metadata
      = ((chunkNote content p).filter (fun c => !(embedVec embedFn c).isEmpty)).map
          (fun c => ⟨p, c.chunkIndex, c.heading, c.text, mtime⟩) := by
  rw [insertedOf_map_metadata embedFn mtime (chunkNote content p) st.nextId hok]
  apply List.map_congr_left
  intro c hc
  have hp : c.filePath = p :=
    chunkNote_filePath ((List.filter_sublist _).subset hc)
  rw [hp]

theorem indexNote_calls (embedFn : EmbedFn) (p : String) (mtime : Int)
    (content : List Char) (st : IndexState)
    (hok : ∀ c ∈ chunkNote content p, ∃ v, embedFn c.text = .ok v) :
    (indexNote embedFn p mtime content st).calls
      = (chunkNote content p).map (fun c => c.text) := by
  simp only [indexNote]
  rw [indexChunksGo_calls _ _ _ _ _ hok]
  simp

/-! ### Search -/

theorem length_numberChunks (filePath : String) :
    ∀ (n : Nat) (l : List (List Char × List Char)),
      (numberChunks filePath n l).length = l.length := by
  intro n l
  induction l generalizing n with
  | nil => rfl
  | cons th rest ih => simp [numberChunks, ih]

theorem search_length_le (sim : List ℚ → ℚ) (st : IndexState) (topK : Nat)
    (excludeFilePath : Option String) :
    (search sim st topK excludeFilePath).length ≤ topK := by
  simp only [search, List.length_map]
  exact List.length_take_le _ _

theorem search_excludes (sim : List ℚ → ℚ) (st : IndexState) (topK : Nat)
    {p : String} (hp : p ≠ "") :
    ∀ r ∈ search sim st topK (some p), r.filePath ≠ p := by
  intro r hr
  simp only [search, List.mem_map] at hr
  obtain ⟨x, hx, hxr⟩ := hr
  have hx' : x ∈ (queryItems sim (topK + 5) st).filter
      (fun r => keepItem (some p) r.item.metadata.filePath) :=
    (List.take_sublist _ _).subset hx
  rw [List.mem_filter] at hx'
  have hkeep := hx'.2
  simp only [keepItem, if_neg hp] at hkeep
  rw [bne_iff_ne] at hkeep
  rw [← hxr]
  exact hkeep

theorem search_exclude_empty_eq (sim : List ℚ → ℚ) (st : IndexState) (topK : Nat) :
    search sim st topK (some "") = search sim st topK none := by
  simp only [search]
  have h : (fun r : ScoredItem => keepItem (some "") r.item.metadata.filePath)
      = (fun r : ScoredItem => keepItem none r.item.metadata.filePath) := by
    funext r
    simp [keepItem]
  rw [h]

/-! ### Concrete fixtures used by witnesses and counterexamples -/

/-- An embedding capability that always succeeds with a one-dimensional
vector. -/
def okEmbed : EmbedFn := fun _ => Except.ok [1]

/-- A 40-character markdown file. -/
def fileA : File := ⟨"a.md", 5, .ok (List.replicate 40 'a')⟩

/-- The store after indexing `fileA` once into an empty store. -/
def storeA : IndexState := (indexSingleNote okEmbed fileA ⟨[], 0⟩).store

/-- A file whose read throws. -/
def badFile : File := ⟨"b.md", 1, .error "io"⟩

/-- A store holding one stale record for `p.md` and one record for
`q.md`, with distinct ids. -/
def storeC3 : IndexState :=
  ⟨[⟨0, [2], ⟨"p.md", 0, [], List.replicate 30 'x', 1⟩⟩,
    ⟨1, [3], ⟨"q.md", 0, [], List.replicate 30 'y', 2⟩⟩], 2⟩

/-- An embedding capability that returns an empty vector for the chunk of
forty `a` and a non-empty vector otherwise. -/
def embedC8 : EmbedFn :=
  fun t => if t = List.replicate 40 'a' then .ok [] else .ok [1]

/-- A two-heading document whose two chunks are forty `a` and forty `b`. -/
def contentC8 : List Char :=
  "# A\n".toList ++ List.replicate 40 'a' ++ "\n# B\n".toList ++ List.replicate 40 'b'

/-- A store holding a single record whose `filePath` is the empty
string. -/
def emptyPathStore : IndexState :=
  ⟨[⟨0, [1], ⟨"", 0, [], List.replicate 30 'z', 4⟩⟩], 1⟩

/-! ### The claims -/

/-- Claim C1, counterexample: `indexSingleNote` performs no freshness
check.  After indexing `fileA` once, the store is fresh for it
(`isIndexed` is true), yet a second `indexSingleNote` call still performs
one embedding call (one per chunk) instead of zero. -/
theorem indexOne_second_call_embeds_counterexample :
    isIndexed "a.md" 5 storeA = true
      ∧ (indexSingleNote okEmbed fileA storeA).calls.length = 1 := by decide

/-- Claim C1, amended: `indexSingleNote` contains no freshness check:
even on a store in which the document is fresh (`isIndexed` true), a call
performs one embedding call per chunk of the document — the `isFresh`
short-circuit exists only in the full-vault pass (`indexVault`), which
consults `isIndexed` before invoking `indexSingleNote`. -/
theorem indexSingleNote_no_freshness_check (embedFn : EmbedFn) (f : File)
    (content : List Char) (st : IndexState)
    (hread : f.content = .ok content)
    (hok : ∀ t, ∃ v, embedFn t = .ok v)
    (_hfresh : isIndexed f.path f.mtime st = true) :
    (indexSingleNote embedFn f st).calls
      = (chunkNote content f.path).map (fun c => c.text) :=
  indexSingleNote_calls embedFn f content st hread hok

/-- Witness for the amended claim C1 at a concrete fresh store. -/
theorem indexSingleNote_no_freshness_check_witness :
    (indexSingleNote okEmbed fileA storeA).calls
      = (chunkNote (List.replicate 40 'a') "a.md").map (fun c => c.text) :=
  indexSingleNote_no_freshness_check okEmbed fileA (List.replicate 40 'a') storeA rfl
    (fun _ => ⟨[1], rfl⟩) (by decide)

/-- Claim C2, counterexample: a headingless 2000-character single
paragraph does not chunk into `ceil(2000/800) = 3` chunks. -/
theorem chunkNote_2000_not_three_chunks :
    ¬(chunkNote (List.replicate 2000 'a') "note.md").length = 3 := by
  intro h
  rw [chunkNote_replicate2000, List.length_singleton] at h
  omega

/-- Claim C2, amended: a headingless 2000-character single paragraph
yields exactly one chunk — carrying the whole (trimmed) text and the
default heading "Introduction" — because `splitLongBlock` never splits
inside a single paragraph. -/
theorem chunkNote_2000_single_chunk :
    chunkNote (List.replicate 2000 'a') "note.md"
      = [⟨List.replicate 2000 'a', "note.md", 0, "Introduction".toList⟩] :=
  chunkNote_replicate2000

/-- Claim C3: under distinct stored ids and an embedding capability that
returns a non-empty vector for every chunk, `indexNote` leaves (i) the
records for the path equal to exactly one record per chunk, in chunk
order, with the chunk's metadata and the new mtime; (ii) the records of
every other path unchanged; (iii) exactly the new chunk count of records
for the path. -/
theorem indexNote_full_replace (embedFn : EmbedFn) (p : String) (mtime : Int)
    (content : List Char) (st : IndexState)
    (hids : (st.items.map Item.id).Nodup)
    (hok : ∀ c ∈ chunkNote content p, ∃ v, embedFn c.text = .ok v ∧ v ≠ []) :
    ((indexNote embedFn p mtime content st).store.items.filter
        (fun it => it.metadata.filePath == p)).map Item.metadata
      = (chunkNote content p).map
          (fun c => ⟨p, c.chunkIndex, c.heading, c.text, mtime⟩)
    ∧ (indexNote embedFn p mtime content st).store.items.filter
        (fun it => !(it.metadata.filePath == p))
      = st.items.filter (fun it => !(it.metadata.filePath == p))
    ∧ ((indexNote embedFn p mtime content st).store.items.filter
        (fun it => it.metadata.filePath == p)).length
      = (chunkNote content p).length := by
  have hok' : ∀ c ∈ chunkNote content p, ∃ v, embedFn c.text = .ok v :=
    fun c hc => (hok c hc).imp (fun v hv => hv.1)
  have hfull : (chunkNote content p).filter (fun c => !(embedVec embedFn c).isEmpty)
      = chunkNote content p := by
    rw [List.filter_eq_self]
    intro c hc
    obtain ⟨v, hv, hne⟩ := hok c hc
    rw [embedVec_eq_of_ok hv]
    cases v with
    | nil => exact absurd rfl hne
    | cons a l => rfl
  refine ⟨?_, indexNote_filter_not_path embedFn p mtime content st hids, ?_⟩
  · rw [indexNote_filter_path embedFn p mtime content st hids,
      indexNote_inserted_map embedFn p mtime content st hok', hfull]
  · rw [indexNote_filter_path embedFn p mtime content st hids]
    have hmapeq := indexNote_inserted_map embedFn p mtime content st hok'
    rw [hfull] at hmapeq
    have hlen := congrArg List.length hmapeq
    rwa [List.length_map, List.length_map] at hlen

/-- Witness for claim C3: re-indexing `p.md` over a store holding a stale
`p.md` record and a `q.md` record. -/
theorem indexNote_full_replace_witness :
    ((indexNote okEmbed "p.md" 9 (List.replicate 40 'a') storeC3).store.items.filter
        (fun it => it.metadata.filePath == "p.md")).map Item.metadata
      = (chunkNote (List.replicate 40 'a') "p.md").map
          (fun c => ⟨"p.md", c.chunkIndex, c.heading, c.text, 9⟩)
    ∧ (indexNote okEmbed "p.md" 9 (List.replicate 40 'a') storeC3).store.items.filter
        (fun it => !(it.metadata.filePath == "p.md"))
      = storeC3.items.filter (fun it => !(it.metadata.filePath == "p.md"))
    ∧ ((indexNote okEmbed "p.md" 9 (List.replicate 40 'a') storeC3).store.items.filter
        (fun it => it.metadata.filePath == "p.md")).length
      = (chunkNote (List.replicate 40 'a') "p.md").length :=
  indexNote_full_replace okEmbed "p.md" 9 (List.replicate 40 'a') storeC3
    (by decide) (fun c _ => ⟨[1], rfl, by simp⟩)

/-- Claim C4: for every similarity, store, `topK` and non-empty excluded
path, `search` returns at most `topK` results and none of them carries
the excluded path. -/
theorem search_topK_and_exclusion (sim : List ℚ → ℚ) (st : IndexState) (topK : Nat)
    (p : String) (hp : p ≠ "") :
    (search sim st topK (some p)).length ≤ topK
    ∧ ∀ r ∈ search sim st topK (some p), r.filePath ≠ p :=
  ⟨search_length_le sim st topK (some p), search_excludes sim st topK hp⟩

/-- Witness for claim C4 at a concrete store and excluded path. -/
theorem search_topK_and_exclusion_witness :
    (search (fun _ => 0) storeA 1 (some "x.md")).length ≤ 1
    ∧ ∀ r ∈ search (fun _ => 0) storeA 1 (some "x.md"), r.filePath ≠ "x.md" :=
  search_topK_and_exclusion (fun _ => 0) storeA 1 "x.md" (by decide)

/-- Claim C5: under the Record invariant that all records of a path share
one mtime, `isIndexed` returns true iff at least one record exists for
the path whose stored mtime equals the supplied mtime exactly — so any
drift, forward or backward, yields false. -/
theorem isIndexed_iff_fresh (p : String) (m : Int) (st : IndexState)
    (hinv : ∀ r ∈ st.items, ∀ u ∈ st.items, r.metadata.filePath = p →
      u.metadata.filePath = p → r.metadata.mtime = u.metadata.mtime) :
    isIndexed p m st = true ↔
      ∃ r ∈ st.items, r.metadata.filePath = p ∧ r.metadata.mtime = m :=
  isIndexed_iff hinv

/-- Witness for claim C5 at the store produced by indexing `fileA`. -/
theorem isIndexed_iff_fresh_witness :
    isIndexed "a.md" 5 storeA = true ↔
      ∃ r ∈ storeA.items, r.metadata.filePath = "a.md" ∧ r.metadata.mtime = 5 :=
  isIndexed_iff_fresh "a.md" 5 storeA (by decide)

set_option maxRecDepth 8000 in
/-- Claim C6, counterexample: a document made of a 400-character
paragraph and a 399-character paragraph (every paragraph of every block
is at most 800 characters) still yields a chunk longer than 800
characters, because the greedy accumulator does not count the
two-character `"\n\n"` joiner. -/
theorem chunk_over_800_from_short_paragraphs :
    (∀ hb ∈ blocksGo
        (splitLines (List.replicate 400 'a' ++ '\n' :: '\n' :: List.replicate 399 'b'))
        "Introduction".toList [],
      ∀ para ∈ splitParas hb.2, para.length ≤ 800)
    ∧ ∃ c ∈ chunkNote (List.replicate 400 'a' ++ '\n' :: '\n' :: List.replicate 399 'b')
        "n.md", 800 < c.text.length := by decide

/-- Claim C6, amended: no chunk exceeds 802 characters unless it is the
trim of a single blank-line-delimited paragraph of its section that is
itself longer than 800 characters; the bound is 802 rather than 800
because the greedy accumulator tests `buffer.length + para.length > 800`
without counting the two-character `"\n\n"` joiner it inserts. -/
theorem chunk_bound_802_or_single_paragraph (content : List Char) (filePath : String) :
    ∀ c ∈ chunkNote content filePath,
      c.text.length ≤ 802
      ∨ ∃ hb ∈ blocksGo (splitLines content) "Introduction".toList [],
          ∃ para ∈ splitParas hb.2, 800 < para.length ∧ c.text = trim para := by
  intro c hc
  obtain ⟨-, -, hb, hbmem, -, raw, hraw, htr⟩ := mem_chunkNote hc
  by_cases hlen : c.text.length ≤ 802
  · exact Or.inl hlen
  · rcases mem_splitLongBlock hraw with h802 | hpara
    · refine Or.inl ?_
      rw [htr]
      exact le_trans (trim_length_le raw) h802
    · refine Or.inr ⟨hb, hbmem, raw, hpara, ?_, htr⟩
      have hle : c.text.length ≤ raw.length := by
        rw [htr]
        exact trim_length_le raw
      omega

/-- Witness for the amended claim C6 at a small document. -/
theorem chunk_bound_802_witness :
    (⟨List.replicate 40 'a', "w2.md", 0, "Introduction".toList⟩ : NoteChunk).text.length ≤ 802
    ∨ ∃ hb ∈ blocksGo (splitLines (List.replicate 40 'a')) "Introduction".toList [],
        ∃ para ∈ splitParas hb.2, 800 < para.length
          ∧ (⟨List.replicate 40 'a', "w2.md", 0,
              "Introduction".toList⟩ : NoteChunk).text = trim para :=
  chunk_bound_802_or_single_paragraph (List.replicate 40 'a') "w2.md" _ (by decide)

/-- Claim C7: the vault pass counts every file exactly once
(`indexed + skipped + failed` equals the number of files), and a file
whose indexing throws is counted as failed while the pass continues with
the remaining files over the store left by the failed attempt. -/
theorem indexVault_counts_and_continues :
    (∀ (embedFn : EmbedFn) (files : List File) (st : IndexState),
      (indexVault embedFn files st).indexed + (indexVault embedFn files st).skipped
        + (indexVault embedFn files st).failed = files.length)
    ∧ (∀ (embedFn : EmbedFn) (f : File) (files : List File) (st : IndexState) (e : String),
      isIndexed f.path f.mtime st = false →
      (indexSingleNote embedFn f st).err = some e →
      indexVault embedFn (f :: files) st
        = ⟨(indexVault embedFn files (indexSingleNote embedFn f st).store).indexed,
           (indexVault embedFn files (indexSingleNote embedFn f st).store).skipped,
           (indexVault embedFn files (indexSingleNote embedFn f st).store).failed + 1,
           (indexVault embedFn files (indexSingleNote embedFn f st).store).store⟩) :=
  ⟨fun embedFn => indexVault_count_sum embedFn,
   fun embedFn f files st e h1 h2 => indexVault_cons_failed embedFn f files st e h1 h2⟩

/-- Witness for claim C7: a two-file pass (one good and one whose read
throws) and the failing-head step at a concrete store. -/
theorem indexVault_counts_and_continues_witness :
    ((indexVault okEmbed [fileA, badFile] ⟨[], 0⟩).indexed
        + (indexVault okEmbed [fileA, badFile] ⟨[], 0⟩).skipped
        + (indexVault okEmbed [fileA, badFile] ⟨[], 0⟩).failed = 2)
    ∧ indexVault okEmbed (badFile :: []) ⟨[], 0⟩
        = ⟨(indexVault okEmbed [] (indexSingleNote okEmbed badFile ⟨[], 0⟩).store).indexed,
           (indexVault okEmbed [] (indexSingleNote okEmbed badFile ⟨[], 0⟩).store).skipped,
           (indexVault okEmbed [] (indexSingleNote okEmbed badFile ⟨[], 0⟩).store).failed + 1,
           (indexVault okEmbed [] (indexSingleNote okEmbed badFile ⟨[], 0⟩).store).store⟩ :=
  ⟨indexVault_counts_and_continues.1 okEmbed [fileA, badFile] ⟨[], 0⟩,
   indexVault_counts_and_continues.2 okEmbed badFile [] ⟨[], 0⟩ "io" (by decide) (by decide)⟩

/-- Claim C8: when every embedding call returns (possibly an empty
vector), the records stored for the path are exactly one record per
chunk whose vector was non-empty — an empty vector yields no record for
its chunk — and every chunk is still passed to the embedding capability
(the empty result aborts nothing). -/
theorem indexNote_empty_vector_skips (embedFn : EmbedFn) (p : String) (mtime : Int)
    (content : List Char) (st : IndexState)
    (hids : (st.items.map Item.id).Nodup)
    (hok : ∀ c ∈ chunkNote content p, ∃ v, embedFn c.text = .ok v) :
    ((indexNote embedFn p mtime content st).store.items.filter
        (fun it => it.metadata.filePath == p)).map Item.metadata
      = ((chunkNote content p).filter (fun c => !(embedVec embedFn c).isEmpty)).map
          (fun c => ⟨p, c.chunkIndex, c.heading, c.text, mtime⟩)
    ∧ (indexNote embedFn p mtime content st).calls
      = (chunkNote content p).map (fun c => c.text) := by
  refine ⟨?_, indexNote_calls embedFn p mtime content st hok⟩
  rw [indexNote_filter_path embedFn p mtime content st hids,
    indexNote_inserted_map embedFn p mtime content st hok]

/-- Witness for claim C8: a two-chunk document whose first chunk embeds
to the empty vector. -/
theorem indexNote_empty_vector_skips_witness :
    ((indexNote embedC8 "x.md" 7 contentC8 ⟨[], 0⟩).store.items.filter
        (fun it => it.metadata.filePath == "x.md")).map Item.metadata
      = ((chunkNote contentC8 "x.md").filter
            (fun c => !(embedVec embedC8 c).isEmpty)).map
          (fun c => ⟨"x.md", c.chunkIndex, c.heading, c.text, 7⟩)
    ∧ (indexNote embedC8 "x.md" 7 contentC8 ⟨[], 0⟩).calls
      = (chunkNote contentC8 "x.md").map (fun c => c.text) :=
  indexNote_empty_vector_skips embedC8 "x.md" 7 contentC8 ⟨[], 0⟩ (by decide)
    (fun c _ => by
      dsimp only [embedC8]
      split
      · exact ⟨[], rfl⟩
      · exact ⟨[1], rfl⟩)

/-- Claim C9: every chunk list of `chunkNote` satisfies the Chunk
invariant: `chunkIndex` values form the dense zero-based sequence in
output order, and every chunk's trimmed text length is at least 30. -/
theorem chunkNote_invariants (content : List Char) (filePath : String) :
    ((chunkNote content filePath).map (fun c => c.chunkIndex)
        = List.range (chunkNote content filePath).length)
    ∧ ∀ c ∈ chunkNote content filePath, 30 ≤ (trim c.text).length := by
  constructor
  · rw [chunkNote, numberChunks_map_chunkIndex, length_numberChunks,
      List.range_eq_range']
  · intro c hc
    obtain ⟨-, hlen, -, -, -, raw, -, htr⟩ := mem_chunkNote hc
    rw [htr, trim_trim, ← htr]
    exact hlen

/-- Witness for claim C9 at a small document. -/
theorem chunkNote_invariants_witness :
    ((chunkNote (List.replicate 40 'a') "w.md").map (fun c => c.chunkIndex)
        = List.range (chunkNote (List.replicate 40 'a') "w.md").length)
    ∧ 30 ≤ (trim (⟨List.replicate 40 'a', "w.md", 0,
        "Introduction".toList⟩ : NoteChunk).text).length :=
  ⟨(chunkNote_invariants (List.replicate 40 'a') "w.md").1,
   (chunkNote_invariants (List.replicate 40 'a') "w.md").2 _ (by decide)⟩

/-- Claim C10: an empty-string `excludeFilePath` is falsy, so it behaves
exactly like an omitted one — no exclusion filtering happens at all — and
in particular a record whose `filePath` is the empty string can appear in
the results. -/
theorem search_empty_exclude_noop :
    (∀ (sim : List ℚ → ℚ) (st : IndexState) (topK : Nat),
      search sim st topK (some "") = search sim st topK none)
    ∧ ∃ r ∈ search (fun _ => 0) emptyPathStore 1 (some ""), r.filePath = "" := by
  refine ⟨fun sim st topK => search_exclude_empty_eq sim st topK, ?_⟩
  decide

end DeepNotes
